import Mathlib

/-!
Verification development for the Hex-App data core (src/utility.py and
src/calling.py): the mtime-cached JSON data layer, fuzzy string matching
(difflib.SequenceMatcher ratio), free-text time parsing, and the
task/note/tutorial-preference stores built on top.

Modelling conventions:
* Python dicts are association lists over `String` keys; assignment
  `d[k] = v` replaces the first occurrence of `k` in place or appends.
* A JSON file on disk either holds a parseable document (`FContent.good v`)
  or bytes that fail `json.load` (`FContent.bad`).  The modification time is
  a natural number drawn from a monotone counter in the state.
* `show_error_toast` calls are modelled as an emitted list of `ErrKind`
  report values returned next to the new state.
* A failure inside `safe_save_json` is injected through an explicit
  `SaveOutcome` oracle argument that distinguishes where the exception
  fires: at `open` (prior file content intact) or inside `json.dump`,
  after `open(filepath, "w")` has already truncated the file (prior
  content destroyed, the partial output left behind as unparseable
  bytes).
-/

/-- Python exception kinds that the modelled code can raise or catch. -/
inductive PyErr where
  | valueError
  | permissionError
  | osError
deriving Repr, DecidableEq

/-- Error-toast reports emitted by the data layer (`show_error_toast`). -/
inductive ErrKind where
  | cacheLoadError
  | invalidJson
  | loadFailed
  | permissionDenied
  | saveFailed
deriving Repr, DecidableEq

/-- First value bound to `k`, if any (Python `dict` lookup). -/
def alookup {V : Type} (k : String) : List (String × V) → Option V
  | [] => none
  | (k', v) :: rest => if k' = k then some v else alookup k rest

/-- Python `d[k] = v`: replace the first binding of `k` in place, else append. -/
def aset {V : Type} (k : String) (v : V) : List (String × V) → List (String × V)
  | [] => [(k, v)]
  | (k', v') :: rest => if k' = k then (k, v) :: rest else (k', v') :: aset k v rest

/-- Python `del d[k]` (applied only when present): drop every binding of `k`. -/
def aerase {V : Type} (k : String) (l : List (String × V)) : List (String × V) :=
  l.filter (fun kv => ¬ kv.1 = k)

theorem alookup_aset_self {V : Type} (k : String) (v : V) (l : List (String × V)) :
    alookup k (aset k v l) = some v := by
  induction l with
  | nil => simp [aset, alookup]
  | cons hd tl ih =>
    by_cases h : hd.1 = k
    · simp [aset, alookup, h]
    · simp [aset, alookup, h, ih]

theorem alookup_aset_ne {V : Type} (k k' : String) (v : V) (l : List (String × V))
    (h : k' ≠ k) : alookup k' (aset k v l) = alookup k' l := by
  induction l with
  | nil => simp [aset, alookup, Ne.symm h]
  | cons hd tl ih =>
    obtain ⟨k₀, v₀⟩ := hd
    by_cases hh : k₀ = k
    · subst hh
      simp [aset, alookup, Ne.symm h]
    · by_cases hk : k₀ = k'
      · simp [aset, alookup, hh, hk, h]
      · simp [aset, alookup, hh, hk, ih]

theorem alookup_aerase_self {V : Type} (k : String) (l : List (String × V)) :
    alookup k (aerase k l) = none := by
  induction l with
  | nil => simp [aerase, alookup]
  | cons hd tl ih =>
    by_cases h : hd.1 = k
    · simpa [aerase, h] using ih
    · simpa [aerase, alookup, h] using ih

/-- Replacing the first binding of `k` by the value it already holds is the
identity. -/
theorem aset_self_of_alookup {V : Type} (k : String) (v : V) (l : List (String × V))
    (h : alookup k l = some v) : aset k v l = l := by
  induction l with
  | nil => simp [alookup] at h
  | cons hd tl ih =>
    obtain ⟨k₀, v₀⟩ := hd
    by_cases hh : k₀ = k
    · subst hh
      have h' : v₀ = v := by simpa [alookup] using h
      subst h'
      simp [aset]
    · simp only [alookup, if_neg hh] at h
      simp [aset, hh, ih h]

/-- JSON-serializable values (the shape of a generic document).  Numbers are
modelled as integers; the reviewed modules never persist fractional
numbers. -/
inductive JVal where
  | null
  | bool (b : Bool)
  | num (n : Int)
  | str (s : String)
  | arr (xs : List JVal)
  | obj (fields : List (String × JVal))

/-- Python truthiness of a JSON value (`if default:`). -/
def JVal.truthy : JVal → Bool
  | .null => false
  | .bool b => b
  | .num n => n ≠ 0
  | .str s => s ≠ ""
  | .arr xs => ¬ xs.isEmpty
  | .obj fields => ¬ fields.isEmpty

/-- Document types storable through the generic JSON layer: enough structure
to evaluate Python truthiness and to build the empty dict `\x7b\x7d` that
`safe_load_json` substitutes for a falsy default. -/
class PyDoc (V : Type) where
  truthy : V → Bool
  emptyDict : V

instance : PyDoc JVal := ⟨JVal.truthy, JVal.obj []⟩

/-- A typed document file: an empty association list is a falsy dict. -/
instance {W : Type} : PyDoc (List (String × W)) :=
  ⟨fun l => ¬ l.isEmpty, []⟩

/-- On-disk bytes of one file: either valid JSON parsing to `v`, or bytes
`json.load` rejects. -/
inductive FContent (V : Type) where
  | good (v : V)
  | bad
deriving Repr, DecidableEq

/-- One file: its (parsed) content and its modification time. -/
structure PFile (V : Type) where
  content : FContent V
  mtime : Nat
deriving Repr, DecidableEq

/-- The world the data layer acts on: the file system, the two dictionaries
of the global `DataCache` (`cache` and `last_modified`), and a monotone
counter supplying fresh modification times for writes. -/
structure Sys (V : Type) where
  fs : List (String × PFile V)
  cache : List (String × V)
  lastMod : List (String × Nat)
  clock : Nat
deriving Repr, DecidableEq

/-- `DataCache.get` (src/utility.py lines 65-83): return `None` when the file
is absent; on an mtime-valid cache entry return it without touching disk;
otherwise read and parse, remembering result and mtime; a parse failure is
caught, toasts `Cache load error`, and returns `None`.  The Python `None`
result is modelled as `Option.none`. -/
def DataCache.get {V : Type} (s : Sys V) (p : String) :
    Option V × Sys V × List ErrKind :=
  match alookup p s.fs with
  | none => (none, s, [])
  | some f =>
    if (alookup p s.cache).isSome ∧ alookup p s.lastMod = some f.mtime then
      (alookup p s.cache, s, [])
    else
      match f.content with
      | .good v =>
        (some v, { s with cache := aset p v s.cache, lastMod := aset p f.mtime s.lastMod }, [])
      | .bad => (none, s, [.cacheLoadError])

/-- `safe_load_json` (src/utility.py lines 157-176): consult the cache; on a
miss re-read the file directly (caching the parse); a `JSONDecodeError`
toasts `Invalid JSON` and falls back to `default if default else \x7b\x7d`;
an absent file returns the same fallback. -/
def safe_load_json {V : Type} [PyDoc V] (s : Sys V) (p : String) (default : V) :
    V × Sys V × List ErrKind :=
  match DataCache.get s p with
  | (some v, s1, l1) => (v, s1, l1)
  | (none, s1, l1) =>
    match alookup p s1.fs with
    | some f =>
      match f.content with
      | .good v =>
        (v, { s1 with cache := aset p v s1.cache, lastMod := aset p f.mtime s1.lastMod }, l1)
      | .bad =>
        ((if PyDoc.truthy default then default else PyDoc.emptyDict), s1, l1 ++ [.invalidJson])
    | none => ((if PyDoc.truthy default then default else PyDoc.emptyDict), s1, l1)

/-- Failure injection for `safe_save_json`, at the granularity the source
admits: `ok` (the dump completes), `failOpen e` (the `open` call itself
raises, e.g. `PermissionError` — the file is untouched), and `failWrite e`
(the dump raises after `open(filepath, "w")` has already truncated the
file: the prior content is destroyed and the partial output is modelled as
bytes that fail to parse). -/
inductive SaveOutcome where
  | ok
  | failOpen (e : PyErr)
  | failWrite (e : PyErr)
deriving Repr, DecidableEq

/-- The toast emitted by the two `except` arms of `safe_save_json`. -/
def saveReport (e : PyErr) : ErrKind :=
  if e = PyErr.permissionError then ErrKind.permissionDenied else ErrKind.saveFailed

/-- Outcomes that never reach the truncating write: with these a failed
save leaves the file content intact. -/
def SaveOutcome.notMidWrite : SaveOutcome → Prop
  | .failWrite _ => False
  | _ => True

/-- `safe_save_json` (src/utility.py lines 179-191): on success write the
document with a fresh modification time and evict the cache entry for the
path.  On failure the matching toast is emitted, `False` is returned, and
the cache dictionaries are never touched (`invalidate` is only reached
after a successful dump); but only a failure at `open` preserves the prior
file content — a failure inside `json.dump` comes after
`open(filepath, "w")` truncated the file, leaving unparseable partial
content with a fresh modification time. -/
def safe_save_json {V : Type} (s : Sys V) (p : String) (v : V) (ork : SaveOutcome) :
    Bool × Sys V × List ErrKind :=
  match ork with
  | .ok =>
    (true,
     { fs := aset p ⟨.good v, s.clock⟩ s.fs,
       cache := aerase p s.cache,
       lastMod := aerase p s.lastMod,
       clock := s.clock + 1 }, [])
  | .failOpen e => (false, s, [saveReport e])
  | .failWrite e =>
    (false, { s with fs := aset p ⟨.bad, s.clock⟩ s.fs, clock := s.clock + 1 },
     [saveReport e])

/-- C2 (amended): a save that fails at `open` (e.g. permission denied)
reports the failure, leaves every piece of state untouched, and a
subsequent `get` returns the pre-failure value unchanged; a save that
fails during the dump still returns `False`, reports, and leaves both
cache dictionaries alone (`invalidate` is never reached), but the file
itself has already been truncated (see the counterexample). -/
theorem safe_save_failure_preserves_state {V : Type} [PyDoc V]
    (s : Sys V) (p : String) (v : V) (e : PyErr) (d : V) :
    (safe_save_json s p v (.failOpen e)).1 = false ∧
    (safe_save_json s p v (.failOpen e)).2.1 = s ∧
    (safe_load_json (safe_save_json s p v (.failOpen e)).2.1 p d).1 =
      (safe_load_json s p d).1 ∧
    (safe_save_json s p v (.failOpen e)).2.2 = [saveReport e] ∧
    (safe_save_json s p v (.failWrite e)).1 = false ∧
    (safe_save_json s p v (.failWrite e)).2.1.cache = s.cache ∧
    (safe_save_json s p v (.failWrite e)).2.1.lastMod = s.lastMod ∧
    (safe_save_json s p v (.failWrite e)).2.2 = [saveReport e] := by
  refine ⟨rfl, rfl, rfl, rfl, rfl, rfl, rfl, rfl⟩

/-- State before the failing save: a healthy document on disk. -/
def preFailSys : Sys JVal :=
  { fs := [("data/tasks.json", ⟨.good (JVal.num 7), 0⟩)], cache := [], lastMod := [],
    clock := 1 }

/-- C2 counterexample: an I/O failure during `json.dump` — a failure kind
the claim explicitly covers — destroys the prior on-disk content, because
`open(filepath, "w")` truncated the file before the dump started; the
subsequent get returns the corrupt-document fallback, not the pre-failure
value 7. -/
theorem save_midwrite_failure_destroys_content :
    (safe_load_json preFailSys "data/tasks.json" JVal.null).1 = JVal.num 7 ∧
    (safe_save_json preFailSys "data/tasks.json" (JVal.num 8) (.failWrite .osError)).1
      = false ∧
    (alookup "data/tasks.json"
        (safe_save_json preFailSys "data/tasks.json" (JVal.num 8)
          (.failWrite .osError)).2.1.fs).map PFile.content = some .bad ∧
    (safe_load_json
        (safe_save_json preFailSys "data/tasks.json" (JVal.num 8)
          (.failWrite .osError)).2.1 "data/tasks.json" JVal.null).1 = JVal.obj [] ∧
    JVal.obj [] ≠ JVal.num 7 := by
  refine ⟨rfl, rfl, rfl, rfl, fun h => nomatch h⟩

/-- C6: a successful `put` followed by `get` on the same path returns exactly
the just-written document, because the save evicted the cache entry and the
next read re-reads from disk. -/
theorem get_after_put_read_back {V : Type} [PyDoc V]
    (s : Sys V) (p : String) (v : V) (d : V) :
    (safe_save_json s p v .ok).1 = true ∧
    (safe_load_json (safe_save_json s p v .ok).2.1 p d).1 = v := by
  refine ⟨rfl, ?_⟩
  simp only [safe_save_json, safe_load_json, DataCache.get, alookup_aset_self,
    alookup_aerase_self, Option.isSome_none, Bool.false_eq_true, false_and, if_false]

/-- C5 (amended): when the file exists but its contents fail to parse and the
cache holds no mtime-valid entry for the path, `safe_load_json` emits the
cache-layer report followed by the `Invalid JSON` (CorruptDocument) report,
returns the caller default when that default is truthy and the empty dict
otherwise, and leaves the state (in particular the cache) unchanged. -/
theorem corrupt_file_returns_default {V : Type} [PyDoc V]
    (s : Sys V) (p : String) (d : V) (f : PFile V)
    (hf : alookup p s.fs = some f) (hb : f.content = .bad)
    (hv : ¬ ((alookup p s.cache).isSome ∧ alookup p s.lastMod = some f.mtime)) :
    safe_load_json s p d =
      ((if PyDoc.truthy d then d else PyDoc.emptyDict), s, [.cacheLoadError, .invalidJson]) := by
  simp [safe_load_json, DataCache.get, hf, hb, hv]

/-- Witness state for C5: a corrupt file with an empty cache. -/
def corruptSys : Sys JVal :=
  { fs := [("data/notes.json", ⟨.bad, 0⟩)], cache := [], lastMod := [], clock := 1 }

theorem corrupt_file_returns_default_witness :
    safe_load_json corruptSys "data/notes.json" (JVal.num 5) =
      (JVal.num 5, corruptSys, [.cacheLoadError, .invalidJson]) := by
  have h := corrupt_file_returns_default corruptSys "data/notes.json" (JVal.num 5)
    ⟨.bad, 0⟩ rfl rfl (by decide)
  simpa using h

/-- C5 counterexample: with a falsy caller-supplied default (here the empty
array), a corrupt file makes `safe_load_json` return the empty dict, not the
caller-supplied default, because of `default if default else \x7b\x7d`. -/
theorem corrupt_falsy_default_returns_empty :
    (safe_load_json corruptSys "data/notes.json" (JVal.arr [])).1 = JVal.obj [] ∧
    JVal.obj [] ≠ JVal.arr [] :=
  ⟨rfl, fun h => nomatch h⟩

/-!
## Time model and `parse_time_input`

Python naive `datetime` values: the calendar date is flattened to a signed
day count (adding `timedelta(days=1)` is exactly `day + 1` and `.replace`
keeps the date), and comparison is lexicographic, equivalently comparison of
total microseconds.  `.replace(hour=h, minute=m, second=0, microsecond=0)`
raises `ValueError` when `h > 23` or `m > 59`, exactly as CPython does.
The source calls `datetime.now()` twice inside one parse; both calls are
modelled as the same instant `now`.  `\d` and `\s` in the source regexes are
modelled over ASCII digits and whitespace.
-/

/-- A naive Python `datetime`: day number plus time-of-day fields. -/
structure PyDateTime where
  day : Int
  hour : Nat
  minute : Nat
  second : Nat
  micro : Nat
deriving Repr, DecidableEq

/-- Total microseconds represented by a datetime (orders datetimes the same
way Python's lexicographic field comparison does). -/
def PyDateTime.toMicros (d : PyDateTime) : Int :=
  (((d.day * 24 + (d.hour : Int)) * 60 + (d.minute : Int)) * 60 + (d.second : Int)) * 1000000
    + (d.micro : Int)

/-- Rebuild a datetime from total microseconds. -/
def PyDateTime.ofMicros (n : Int) : PyDateTime :=
  { day := ((((n.ediv 1000000).ediv 60).ediv 60).ediv 24),
    hour := ((((n.ediv 1000000).ediv 60).ediv 60).emod 24).toNat,
    minute := (((n.ediv 1000000).ediv 60).emod 60).toNat,
    second := ((n.ediv 1000000).emod 60).toNat,
    micro := (n.emod 1000000).toNat }

/-- Python `a < b` on datetimes. -/
def dtLt (a b : PyDateTime) : Bool := a.toMicros < b.toMicros

/-- Python `a <= b` on datetimes. -/
def dtLe (a b : PyDateTime) : Bool := a.toMicros ≤ b.toMicros

/-- `d + timedelta(days=n)`. -/
def dtAddDays (d : PyDateTime) (n : Int) : PyDateTime := { d with day := d.day + n }

/-- `d + timedelta(minutes=m)` (exact; overflow of the year-9999 bound is out
of the modelled range). -/
def dtAddMinutes (d : PyDateTime) (m : Nat) : PyDateTime :=
  PyDateTime.ofMicros (d.toMicros + (m : Int) * 60000000)

/-- `d.replace(hour=h, minute=m, second=0, microsecond=0)`: validates the
field ranges and otherwise keeps the date. -/
def dtReplace (d : PyDateTime) (h m : Nat) : Except PyErr PyDateTime :=
  if h ≤ 23 ∧ m ≤ 59 then
    .ok { d with hour := h, minute := m, second := 0, micro := 0 }
  else
    .error .valueError

/-- Numeric value of a list of ASCII digit characters (Python `int`). -/
def digitsVal (ds : List Char) : Nat :=
  ds.foldl (fun n c => n * 10 + (c.toNat - 48)) 0

/-- After `\s*`, try the literal alternation `(am|pm)`; result is `isPm`. -/
def tailAmPm (rest : List Char) : Option Bool :=
  match rest.dropWhile Char.isWhitespace with
  | 'a' :: 'm' :: _ => some false
  | 'p' :: 'm' :: _ => some true
  | _ => none

/-- Continue the meridiem pattern after the hour digits: greedily try the
optional `(?::(\d\x7b2\x7d))?` group, falling back to skipping it, then
`\s*(am|pm)`. -/
def merAfterDigits (h : Nat) (rest : List Char) : Option (Nat × Option Nat × Bool) :=
  (match rest with
   | ':' :: d1 :: d2 :: rest2 =>
     if d1.isDigit ∧ d2.isDigit then
       (tailAmPm rest2).map (fun pm => (h, some (digitsVal [d1, d2]), pm))
     else none
   | _ => none)
  <|> (tailAmPm rest).map (fun pm => (h, none, pm))

/-- Try the meridiem pattern anchored at the head of `cs`: one or two hour
digits (greedy, with backtracking from two to one). -/
def meridiemAt (cs : List Char) : Option (Nat × Option Nat × Bool) :=
  match cs with
  | c1 :: c2 :: rest =>
    if c1.isDigit then
      if c2.isDigit then
        merAfterDigits (digitsVal [c1, c2]) rest <|>
          merAfterDigits (digitsVal [c1]) (c2 :: rest)
      else merAfterDigits (digitsVal [c1]) (c2 :: rest)
    else none
  | [c1] => if c1.isDigit then merAfterDigits (digitsVal [c1]) [] else none
  | [] => none

/-- `re.search` of form 1, `(\d\x7b1,2\x7d)(?::(\d\x7b2\x7d))?\s*(am|pm)`:
leftmost anchoring position wins. -/
def searchMeridiem : List Char → Option (Nat × Option Nat × Bool)
  | [] => none
  | c :: rest => meridiemAt (c :: rest) <|> searchMeridiem rest

/-- Try the 24-hour pattern `(\d\x7b1,2\x7d):(\d\x7b2\x7d)` anchored at the
head of `cs` (two hour digits greedily, backtracking to one). -/
def h24At (cs : List Char) : Option (Nat × Nat) :=
  match cs with
  | c1 :: rest1 =>
    if c1.isDigit then
      (match rest1 with
       | c2 :: ':' :: d1 :: d2 :: _ =>
         if c2.isDigit ∧ d1.isDigit ∧ d2.isDigit then
           some (digitsVal [c1, c2], digitsVal [d1, d2])
         else none
       | _ => none)
      <|>
      (match rest1 with
       | ':' :: d1 :: d2 :: _ =>
         if d1.isDigit ∧ d2.isDigit then some (digitsVal [c1], digitsVal [d1, d2]) else none
       | _ => none)
    else none
  | [] => none

/-- `re.search` of form 2. -/
def search24 : List Char → Option (Nat × Nat)
  | [] => none
  | c :: rest => h24At (c :: rest) <|> search24 rest

/-- Try form 3, `in\s+(\d+)\s*(minute|hour|min|hr)s?`, anchored at the head;
result is `(amount, isHour)` — the alternation orders `minute`, `hour`,
`min`, `hr`, and the trailing optional `s` can never fail. -/
def relAt (cs : List Char) : Option (Nat × Bool) :=
  match cs with
  | 'i' :: 'n' :: rest =>
    match rest with
    | c :: _ =>
      if c.isWhitespace then
        let r1 := rest.dropWhile Char.isWhitespace
        let ds := r1.takeWhile Char.isDigit
        if ds.isEmpty then none
        else
          let r2 := (r1.drop ds.length).dropWhile Char.isWhitespace
          if ['m', 'i', 'n', 'u', 't', 'e'].isPrefixOf r2 then some (digitsVal ds, false)
          else if ['h', 'o', 'u', 'r'].isPrefixOf r2 then some (digitsVal ds, true)
          else if ['m', 'i', 'n'].isPrefixOf r2 then some (digitsVal ds, false)
          else if ['h', 'r'].isPrefixOf r2 then some (digitsVal ds, true)
          else none
      else none
    | [] => none
  | _ => none

/-- `re.search` of form 3. -/
def searchRel : List Char → Option (Nat × Bool)
  | [] => none
  | c :: rest => relAt (c :: rest) <|> searchRel rest

/-- Strip whitespace from both ends of a character list (`str.strip`). -/
def trimChars (cs : List Char) : List Char :=
  ((cs.dropWhile Char.isWhitespace).reverse.dropWhile Char.isWhitespace).reverse

/-- `text.lower().strip()` as a character list. -/
def normChars (text : String) : List Char :=
  trimChars (text.toList.map Char.toLower)

/-- Meridiem hour adjustment: `pm` adds 12 unless the hour is 12; `12am`
becomes hour 0. -/
def adjHour (h : Nat) (isPm : Bool) : Nat :=
  if isPm ∧ h ≠ 12 then h + 12 else if ¬ isPm ∧ h = 12 then 0 else h

/-- Today's date at the given wall-clock time, seconds and microseconds
zeroed (the value `.replace` produces when it succeeds). -/
def clockToday (now : PyDateTime) (h m : Nat) : PyDateTime :=
  { now with hour := h, minute := m, second := 0, micro := 0 }

/-- `if target_time < datetime.now(): target_time += timedelta(days=1)`. -/
def rollFwd (t now : PyDateTime) : PyDateTime :=
  if dtLt t now then dtAddDays t 1 else t

/-- `parse_time_input` (src/utility.py lines 221-264).  The result is
`Except` over `Option`: `.error` models an exception escaping the function
(CPython raises `ValueError` from `datetime.replace` when a matched hour or
minute is out of range), `.ok none` models the Python `None` return. -/
def parse_time_input (text : String) (now : PyDateTime) :
    Except PyErr (Option PyDateTime) :=
  let cs := normChars text
  match searchMeridiem cs with
  | some (h0, mo, isPm) =>
    match dtReplace now (adjHour h0 isPm) (mo.getD 0) with
    | .error e => .error e
    | .ok t => .ok (some (rollFwd t now))
  | none =>
    match search24 cs with
    | some (h, m) =>
      match dtReplace now h m with
      | .error e => .error e
      | .ok t => .ok (some (rollFwd t now))
    | none =>
      match searchRel cs with
      | some (amt, isHour) =>
        .ok (some (dtAddMinutes now (if isHour then amt * 60 else amt)))
      | none => .ok none

/-- A sample instant used for concrete evaluations. -/
def dNow : PyDateTime := ⟨20000, 10, 0, 0, 0⟩

example : parse_time_input "5pm" dNow = .ok (some ⟨20000, 17, 0, 0, 0⟩) := rfl
example : parse_time_input "5pm" ⟨20000, 18, 0, 0, 0⟩ = .ok (some ⟨20001, 17, 0, 0, 0⟩) := rfl
example : parse_time_input "17:30" dNow = .ok (some ⟨20000, 17, 30, 0, 0⟩) := rfl
example : parse_time_input "in 2 hours" dNow = .ok (some ⟨20000, 12, 0, 0, 0⟩) := rfl
example : parse_time_input "in 30 min" dNow = .ok (some ⟨20000, 10, 30, 0, 0⟩) := rfl
example : parse_time_input "nonsense" dNow = .ok none := rfl
example : parse_time_input "123am" dNow = .ok (some ⟨20000, 23, 0, 0, 0⟩) := rfl
example : parse_time_input "12am tonight" dNow = .ok (some ⟨20001, 0, 0, 0, 0⟩) := rfl
example : parse_time_input "5:3pm" dNow = .ok (some ⟨20000, 15, 0, 0, 0⟩) := rfl

/-- C1 (code divergence): inputs matched by a clock form with an
out-of-range hour make `datetime.replace` raise `ValueError`, and the
exception escapes `parse_time_input` — it neither returns `None` nor is
caught. -/
theorem parse_time_raises_on_out_of_range :
    parse_time_input "25:00" dNow = .error .valueError ∧
    parse_time_input "13pm" dNow = .error .valueError := by
  exact ⟨rfl, rfl⟩

/-- C4 (amended): for input matched by clock form 1 (and, when form 1 fails,
by form 2), with the adjusted hour and minute in `replace`'s legal range,
the parse result is today's date at that wall-clock time with seconds and
sub-seconds zeroed, rolled forward exactly one day when that timestamp is
strictly before `now`, and returned as-is otherwise (in particular when it
equals `now` exactly). -/
theorem parse_clock_forms_roll (text : String) (now : PyDateTime) :
    (∀ h0 mo isPm, searchMeridiem (normChars text) = some (h0, mo, isPm) →
      adjHour h0 isPm ≤ 23 → mo.getD 0 ≤ 59 →
      parse_time_input text now =
        .ok (some (rollFwd (clockToday now (adjHour h0 isPm) (mo.getD 0)) now))) ∧
    (searchMeridiem (normChars text) = none →
      ∀ h m, search24 (normChars text) = some (h, m) → h ≤ 23 → m ≤ 59 →
      parse_time_input text now = .ok (some (rollFwd (clockToday now h m) now))) := by
  constructor
  · intro h0 mo isPm hs hh hm
    simp [parse_time_input, hs, dtReplace, hh, hm, clockToday]
  · intro hn h m hs hh hm
    simp [parse_time_input, hn, hs, dtReplace, hh, hm, clockToday]

/-- Witness for C4: "5pm" at 14:00 stays today at 17:00; "17:30" at 10:00
stays today at 17:30. -/
theorem parse_clock_forms_roll_witness :
    parse_time_input "5pm" ⟨20000, 14, 0, 0, 0⟩ =
      .ok (some (rollFwd (clockToday ⟨20000, 14, 0, 0, 0⟩ (adjHour 5 true) ((none : Option Nat).getD 0)) ⟨20000, 14, 0, 0, 0⟩)) ∧
    parse_time_input "17:30" ⟨20000, 10, 0, 0, 0⟩ =
      .ok (some (rollFwd (clockToday ⟨20000, 10, 0, 0, 0⟩ 17 30) ⟨20000, 10, 0, 0, 0⟩)) := by
  constructor
  · exact (parse_clock_forms_roll "5pm" ⟨20000, 14, 0, 0, 0⟩).1 5 none true rfl
      (by decide) (by decide)
  · exact (parse_clock_forms_roll "17:30" ⟨20000, 10, 0, 0, 0⟩).2 rfl 17 30 rfl
      (by decide) (by decide)

/-- C4 counterexample: when the parsed wall-clock time equals `now` exactly
(here "5pm" requested at exactly 17:00:00.000000), the code compares with
strict `<` and does not roll the timestamp forward, so the result equals
`now` itself rather than the next day as the claim requires for a timestamp
that is not strictly after `now`. -/
theorem parse_equal_now_not_rolled :
    parse_time_input "5pm" ⟨20000, 17, 0, 0, 0⟩ = .ok (some ⟨20000, 17, 0, 0, 0⟩) ∧
    (⟨20000, 17, 0, 0, 0⟩ : PyDateTime) ≠ dtAddDays ⟨20000, 17, 0, 0, 0⟩ 1 := by
  exact ⟨rfl, by decide⟩

/-!
## Task, note and preference stores (src/calling.py)

Fixed file paths (`os.path.join(DATA_DIR, ...)` is flattened to the literal
relative path).  Task and note documents are typed: one association list
from user id to that user's ordered record sequence.  Stdlib helpers that
format or parse concrete timestamps (`datetime.fromisoformat`,
`.isoformat()`, `.strftime`, `uuid.uuid4`) are threaded in as function or
value parameters, since their internals are irrelevant to the claims.
-/

def TASKS_FILE : String := "data/tasks.json"
def NOTES_FILE : String := "data/notes.json"
def USER_PREFS_FILE : String := "data/user_prefs.json"

/-- One reminder record as created by `create_task`. -/
structure PTask where
  id : String
  reason : String
  time : String
  created : String
  completed : Bool
  notified : Bool
deriving Repr, DecidableEq

/-- The tasks document: user id to ordered task sequence. -/
abbrev TaskDoc := List (String × List PTask)

/-- One quick-note record. -/
structure Note where
  id : String
  title : String
  content : String
  timestamp : String
  date_display : String
deriving Repr, DecidableEq

/-- The notes document. -/
abbrev NoteDoc := List (String × List Note)

/-- The user-preferences document: user id to a record of flag values. -/
abbrev PrefDoc := List (String × List (String × JVal))

/-- The `for ... if task.get(id) == task_id: task[notified] = True; break`
loop: set the flag on the first matching record only. -/
def setNotifiedFirst (tid : String) : List PTask → List PTask
  | [] => []
  | t :: ts => if t.id = tid then { t with notified := true } :: ts else t :: setNotifiedFirst tid ts

/-- Same loop for `mark_task_completed`. -/
def setCompletedFirst (tid : String) : List PTask → List PTask
  | [] => []
  | t :: ts => if t.id = tid then { t with completed := true } :: ts else t :: setCompletedFirst tid ts

/-- `TaskChecker.mark_task_notified` (src/calling.py lines 139-150). -/
def TaskChecker.mark_task_notified (s : Sys TaskDoc) (uid tid : String)
    (ork : SaveOutcome) : Sys TaskDoc × List ErrKind :=
  let r := safe_load_json s TASKS_FILE []
  let user_tasks := (alookup uid r.1).getD []
  let tasks2 := aset uid (setNotifiedFirst tid user_tasks) r.1
  let w := safe_save_json r.2.1 TASKS_FILE tasks2 ork
  (w.2.1, r.2.2 ++ w.2.2)

/-- `TaskChecker.mark_task_completed` (src/calling.py lines 152-163). -/
def TaskChecker.mark_task_completed (s : Sys TaskDoc) (uid tid : String)
    (ork : SaveOutcome) : Sys TaskDoc × List ErrKind :=
  let r := safe_load_json s TASKS_FILE []
  let user_tasks := (alookup uid r.1).getD []
  let tasks2 := aset uid (setCompletedFirst tid user_tasks) r.1
  let w := safe_save_json r.2.1 TASKS_FILE tasks2 ork
  (w.2.1, r.2.2 ++ w.2.2)

/-- The pending filter of one task record: not completed, not notified, and
its stored time string parses to an instant not after `now`; a string the
iso parser rejects is skipped by the `except: continue`. -/
def pendKeep (fromiso : String → Option PyDateTime) (now : PyDateTime) (t : PTask) : Bool :=
  !t.completed && !t.notified &&
    (match fromiso t.time with
     | some tt => dtLe tt now
     | none => false)

/-- `TaskChecker.get_pending_tasks` (src/calling.py lines 120-137), with the
accumulating `for` loop written as a fold.  `fromiso` stands for
`datetime.fromisoformat` (`none` models the raised `ValueError` the loop
catches), `now` for `datetime.now()`. -/
def TaskChecker.get_pending_tasks (fromiso : String → Option PyDateTime)
    (s : Sys TaskDoc) (uid : String) (now : PyDateTime) :
    List PTask × Sys TaskDoc × List ErrKind :=
  let r := safe_load_json s TASKS_FILE []
  let user_tasks := (alookup uid r.1).getD []
  let pending := user_tasks.foldl
    (fun acc task =>
      if !task.completed && !task.notified then
        match fromiso task.time with
        | some tt => if dtLe tt now then acc ++ [task] else acc
        | none => acc
      else acc) []
  (pending, r.2.1, r.2.2)

/-- The fail message returned by `create_task` on an unparseable time. -/
def couldNotMsg : String :=
  "Could not understand the time format. Try \x275pm\x27, \x2717:30\x27, or \x27in 2 hours\x27"

/-- `TaskChecker.create_task` (src/calling.py lines 165-190).  `newId` stands
for `str(uuid.uuid4())`, `nowIso` for `datetime.now().isoformat()`, `isoFmt`
for `.isoformat()`, `dispFmt` for the `.strftime` display format; `ork` is
the save-failure oracle.  A `ValueError` escaping `parse_time_input`
escapes `create_task` as well (`.error`). -/
def TaskChecker.create_task (isoFmt dispFmt : PyDateTime → String)
    (newId nowIso : String) (s : Sys TaskDoc) (uid reason time_str : String)
    (now : PyDateTime) (ork : SaveOutcome) :
    Except PyErr (Bool × String) × Sys TaskDoc × List ErrKind :=
  match parse_time_input time_str now with
  | .error e => (.error e, s, [])
  | .ok none => (.ok (false, couldNotMsg), s, [])
  | .ok (some t) =>
    let r := safe_load_json s TASKS_FILE []
    let tasks1 := if alookup uid r.1 = none then aset uid [] r.1 else r.1
    let newTask : PTask :=
      { id := newId, reason := reason, time := isoFmt t, created := nowIso,
        completed := false, notified := false }
    let tasks2 := aset uid ((alookup uid tasks1).getD [] ++ [newTask]) tasks1
    let w := safe_save_json r.2.1 TASKS_FILE tasks2 ork
    (.ok (true, "Reminder set for " ++ dispFmt t ++ ": " ++ reason), w.2.1, r.2.2 ++ w.2.2)

/-- `NoteManager.update_note` (src/calling.py lines 230-245): replace title,
content and both timestamp fields on the first matching note.  `nowIso` and
`nowDisp` stand for the two `datetime.now()` format calls. -/
def updateNoteFirst (note_id title content nowIso nowDisp : String) : List Note → List Note
  | [] => []
  | n :: ns =>
    if n.id = note_id then
      { n with title := title, content := content, timestamp := nowIso,
               date_display := nowDisp } :: ns
    else n :: updateNoteFirst note_id title content nowIso nowDisp ns

def NoteManager.update_note (nowIso nowDisp : String) (s : Sys NoteDoc)
    (uid note_id title content : String) (ork : SaveOutcome) :
    Sys NoteDoc × List ErrKind :=
  let r := safe_load_json s NOTES_FILE []
  let user_notes := (alookup uid r.1).getD []
  let notes2 := aset uid (updateNoteFirst note_id title content nowIso nowDisp user_notes) r.1
  let w := safe_save_json r.2.1 NOTES_FILE notes2 ork
  (w.2.1, r.2.2 ++ w.2.2)

/-- `TutorialManager.mark_tutorial_complete` (src/calling.py lines 83-89) as
the pure transformation it applies to the loaded preferences document. -/
def markTutorialDoc (prefs : PrefDoc) (uid : String) : PrefDoc :=
  let prefs1 :=
    match alookup uid prefs with
    | none => aset uid [] prefs
    | some _ => prefs
  aset uid (aset "tutorial_shown" (JVal.bool true) ((alookup uid prefs1).getD [])) prefs1

/-- Store-level `mark_tutorial_complete`: load, transform, save. -/
def TutorialManager.mark_tutorial_complete (s : Sys PrefDoc) (uid : String)
    (ork : SaveOutcome) : Sys PrefDoc × List ErrKind :=
  let r := safe_load_json s USER_PREFS_FILE []
  let w := safe_save_json r.2.1 USER_PREFS_FILE (markTutorialDoc r.1 uid) ork
  (w.2.1, r.2.2 ++ w.2.2)

/-- When no record matches the id, the notified-marking loop is the
identity. -/
theorem setNotifiedFirst_of_absent (tid : String) (ts : List PTask)
    (h : ∀ t ∈ ts, t.id ≠ tid) : setNotifiedFirst tid ts = ts := by
  induction ts with
  | nil => rfl
  | cons t ts ih =>
    have ht := h t (by simp)
    simp only [setNotifiedFirst, if_neg ht]
    rw [ih (fun x hx => h x (by simp [hx]))]

theorem setCompletedFirst_of_absent (tid : String) (ts : List PTask)
    (h : ∀ t ∈ ts, t.id ≠ tid) : setCompletedFirst tid ts = ts := by
  induction ts with
  | nil => rfl
  | cons t ts ih =>
    have ht := h t (by simp)
    simp only [setCompletedFirst, if_neg ht]
    rw [ih (fun x hx => h x (by simp [hx]))]

theorem updateNoteFirst_of_absent (note_id title content nowIso nowDisp : String)
    (ns : List Note) (h : ∀ n ∈ ns, n.id ≠ note_id) :
    updateNoteFirst note_id title content nowIso nowDisp ns = ns := by
  induction ns with
  | nil => rfl
  | cons n ns ih =>
    have hn := h n (by simp)
    simp only [updateNoteFirst, if_neg hn]
    rw [ih (fun x hx => h x (by simp [hx]))]

/-- On a cache miss with a parseable file, `safe_load_json` returns the
on-disk document and only refreshes the cache. -/
theorem safe_load_json_disk {V : Type} [PyDoc V] (s : Sys V) (p : String)
    (d : V) (f : PFile V) (v : V)
    (hc : alookup p s.cache = none) (hf : alookup p s.fs = some f)
    (hg : f.content = .good v) :
    safe_load_json s p d =
      (v, { s with cache := aset p v s.cache, lastMod := aset p f.mtime s.lastMod }, []) := by
  simp [safe_load_json, DataCache.get, hc, hf, hg]

/-- C3 (amended): `markNotified`, `markCompleted` and `updateNote` with an id
absent from an existing user entry rewrite the same document, leaving the
persisted store unchanged; no failure is raised.  This holds for a
completed save and for one that fails at `open`; an I/O failure during the
dump truncates the document regardless of the id, which is C2's failure
mode, not a property of these operations. -/
theorem mark_and_update_missing_id_noop :
    (∀ (s : Sys TaskDoc) (uid tid : String) (doc : TaskDoc) (f : PFile TaskDoc)
       (ts : List PTask) (ork : SaveOutcome), ork.notMidWrite →
      alookup TASKS_FILE s.cache = none →
      alookup TASKS_FILE s.fs = some f → f.content = .good doc →
      alookup uid doc = some ts → (∀ t ∈ ts, t.id ≠ tid) →
      (alookup TASKS_FILE (TaskChecker.mark_task_notified s uid tid ork).1.fs).map
          PFile.content = some (.good doc)) ∧
    (∀ (s : Sys TaskDoc) (uid tid : String) (doc : TaskDoc) (f : PFile TaskDoc)
       (ts : List PTask) (ork : SaveOutcome), ork.notMidWrite →
      alookup TASKS_FILE s.cache = none →
      alookup TASKS_FILE s.fs = some f → f.content = .good doc →
      alookup uid doc = some ts → (∀ t ∈ ts, t.id ≠ tid) →
      (alookup TASKS_FILE (TaskChecker.mark_task_completed s uid tid ork).1.fs).map
          PFile.content = some (.good doc)) ∧
    (∀ (nowIso nowDisp : String) (s : Sys NoteDoc) (uid note_id title content : String)
       (doc : NoteDoc) (f : PFile NoteDoc) (ns : List Note) (ork : SaveOutcome),
      ork.notMidWrite →
      alookup NOTES_FILE s.cache = none →
      alookup NOTES_FILE s.fs = some f → f.content = .good doc →
      alookup uid doc = some ns → (∀ n ∈ ns, n.id ≠ note_id) →
      (alookup NOTES_FILE
          (NoteManager.update_note nowIso nowDisp s uid note_id title content ork).1.fs).map
          PFile.content = some (.good doc)) := by
  refine ⟨?_, ?_, ?_⟩
  · intro s uid tid doc f ts ork hmw hc hf hg hu habs
    have hload := safe_load_json_disk s TASKS_FILE [] f doc hc hf hg
    have hdoc : aset uid (setNotifiedFirst tid ((alookup uid doc).getD [])) doc = doc := by
      rw [hu]
      simp only [Option.getD_some]
      rw [setNotifiedFirst_of_absent tid ts habs, aset_self_of_alookup uid ts doc hu]
    cases ork with
    | ok =>
      simp [TaskChecker.mark_task_notified, hload, hdoc, safe_save_json, alookup_aset_self, hg]
    | failOpen e =>
      simp [TaskChecker.mark_task_notified, hload, hdoc, safe_save_json, hf, hg]
    | failWrite e =>
      simp [SaveOutcome.notMidWrite] at hmw
  · intro s uid tid doc f ts ork hmw hc hf hg hu habs
    have hload := safe_load_json_disk s TASKS_FILE [] f doc hc hf hg
    have hdoc : aset uid (setCompletedFirst tid ((alookup uid doc).getD [])) doc = doc := by
      rw [hu]
      simp only [Option.getD_some]
      rw [setCompletedFirst_of_absent tid ts habs, aset_self_of_alookup uid ts doc hu]
    cases ork with
    | ok =>
      simp [TaskChecker.mark_task_completed, hload, hdoc, safe_save_json, alookup_aset_self, hg]
    | failOpen e =>
      simp [TaskChecker.mark_task_completed, hload, hdoc, safe_save_json, hf, hg]
    | failWrite e =>
      simp [SaveOutcome.notMidWrite] at hmw
  · intro nowIso nowDisp s uid note_id title content doc f ns ork hmw hc hf hg hu habs
    have hload := safe_load_json_disk s NOTES_FILE [] f doc hc hf hg
    have hdoc : aset uid
        (updateNoteFirst note_id title content nowIso nowDisp ((alookup uid doc).getD []))
        doc = doc := by
      rw [hu]
      simp only [Option.getD_some]
      rw [updateNoteFirst_of_absent note_id title content nowIso nowDisp ns habs,
        aset_self_of_alookup uid ns doc hu]
    cases ork with
    | ok =>
      simp [NoteManager.update_note, hload, hdoc, safe_save_json, alookup_aset_self, hg]
    | failOpen e =>
      simp [NoteManager.update_note, hload, hdoc, safe_save_json, hf, hg]
    | failWrite e =>
      simp [SaveOutcome.notMidWrite] at hmw

/-- Witness task store: user "u" holds one task with id "a". -/
def oneTaskSys : Sys TaskDoc :=
  { fs := [(TASKS_FILE, ⟨.good [("u", [⟨"a", "r", "t", "c", false, false⟩])], 0⟩)],
    cache := [], lastMod := [], clock := 1 }

/-- Witness note store: user "u" holds one note with id "a". -/
def oneNoteSys : Sys NoteDoc :=
  { fs := [(NOTES_FILE, ⟨.good [("u", [⟨"a", "t", "c", "ts", "dd"⟩])], 0⟩)],
    cache := [], lastMod := [], clock := 1 }

theorem mark_and_update_missing_id_noop_witness :
    (alookup TASKS_FILE (TaskChecker.mark_task_notified oneTaskSys "u" "b" .ok).1.fs).map
        PFile.content = some (.good [("u", [⟨"a", "r", "t", "c", false, false⟩])]) ∧
    (alookup TASKS_FILE (TaskChecker.mark_task_completed oneTaskSys "u" "b" .ok).1.fs).map
        PFile.content = some (.good [("u", [⟨"a", "r", "t", "c", false, false⟩])]) ∧
    (alookup NOTES_FILE
        (NoteManager.update_note "i" "d" oneNoteSys "u" "b" "T" "C" .ok).1.fs).map
        PFile.content = some (.good [("u", [⟨"a", "t", "c", "ts", "dd"⟩])]) := by
  refine ⟨?_, ?_, ?_⟩
  · exact mark_and_update_missing_id_noop.1 oneTaskSys "u" "b"
      [("u", [⟨"a", "r", "t", "c", false, false⟩])] ⟨.good [("u", [⟨"a", "r", "t", "c", false, false⟩])], 0⟩
      [⟨"a", "r", "t", "c", false, false⟩] .ok trivial rfl rfl rfl rfl (by decide)
  · exact mark_and_update_missing_id_noop.2.1 oneTaskSys "u" "b"
      [("u", [⟨"a", "r", "t", "c", false, false⟩])] ⟨.good [("u", [⟨"a", "r", "t", "c", false, false⟩])], 0⟩
      [⟨"a", "r", "t", "c", false, false⟩] .ok trivial rfl rfl rfl rfl (by decide)
  · exact mark_and_update_missing_id_noop.2.2 "i" "d" oneNoteSys "u" "b" "T" "C"
      [("u", [⟨"a", "t", "c", "ts", "dd"⟩])] ⟨.good [("u", [⟨"a", "t", "c", "ts", "dd"⟩])], 0⟩
      [⟨"a", "t", "c", "ts", "dd"⟩] .ok trivial rfl rfl rfl rfl (by decide)

/-- Empty task store (no users at all). -/
def noUserSys : Sys TaskDoc :=
  { fs := [(TASKS_FILE, ⟨.good [], 0⟩)], cache := [], lastMod := [], clock := 1 }

/-- C3 counterexample: `mark_task_notified` for a user with no entry writes
`tasks[user_id] = user_tasks` back, creating an empty entry for that user —
the persisted document changes from `\x7b\x7d` to `\x7b"u": []\x7d`. -/
theorem mark_absent_user_creates_entry :
    (alookup TASKS_FILE (TaskChecker.mark_task_notified noUserSys "u" "x" .ok).1.fs).map
        PFile.content = some (.good [("u", [])]) ∧
    ([("u", [])] : TaskDoc) ≠ [] := by
  exact ⟨rfl, by decide⟩

/-- The accumulating pending loop is the filter by `pendKeep`. -/
theorem pending_foldl_eq_filter (fromiso : String → Option PyDateTime)
    (now : PyDateTime) (l : List PTask) (acc : List PTask) :
    l.foldl
      (fun acc task =>
        if !task.completed && !task.notified then
          match fromiso task.time with
          | some tt => if dtLe tt now then acc ++ [task] else acc
          | none => acc
        else acc) acc = acc ++ l.filter (pendKeep fromiso now) := by
  induction l generalizing acc with
  | nil => simp
  | cons t l ih =>
    have hstep :
        (if !t.completed && !t.notified then
          match fromiso t.time with
          | some tt => if dtLe tt now then acc ++ [t] else acc
          | none => acc
        else acc) = if pendKeep fromiso now t then acc ++ [t] else acc := by
      unfold pendKeep
      cases hc : (!t.completed && !t.notified) with
      | false => simp [hc]
      | true =>
        cases hio : fromiso t.time with
        | none => simp [hc, hio]
        | some tt => cases hle : dtLe tt now <;> simp [hc, hio, hle]
    rw [List.foldl_cons, hstep, List.filter_cons]
    cases hp : pendKeep fromiso now t with
    | false =>
      simp only [hp, Bool.false_eq_true, if_false]
      exact ih acc
    | true =>
      simp only [hp, eq_self_iff_true, if_true]
      rw [ih (acc ++ [t])]
      simp


/-- C8: `get_pending_tasks` returns exactly the user's stored tasks that are
neither completed nor notified and whose stored time parses to an instant at
or before `now`, in stored order; every returned task satisfies the
predicate (never completed, never notified, never a future or unparseable
time), and the scan touches no state beyond the load and reports nothing
extra. -/
theorem get_pending_tasks_filter (fromiso : String → Option PyDateTime)
    (s : Sys TaskDoc) (uid : String) (now : PyDateTime) :
    (TaskChecker.get_pending_tasks fromiso s uid now).1 =
      ((alookup uid (safe_load_json s TASKS_FILE ([] : TaskDoc)).1).getD []).filter
        (pendKeep fromiso now) ∧
    ((TaskChecker.get_pending_tasks fromiso s uid now).1.all
      (fun t => !t.completed && !t.notified &&
        (match fromiso t.time with
         | some tt => dtLe tt now
         | none => false))) = true ∧
    (TaskChecker.get_pending_tasks fromiso s uid now).2.1 =
      (safe_load_json s TASKS_FILE ([] : TaskDoc)).2.1 ∧
    (TaskChecker.get_pending_tasks fromiso s uid now).2.2 =
      (safe_load_json s TASKS_FILE ([] : TaskDoc)).2.2 := by
  have hmain : (TaskChecker.get_pending_tasks fromiso s uid now).1 =
      ((alookup uid (safe_load_json s TASKS_FILE ([] : TaskDoc)).1).getD []).filter
        (pendKeep fromiso now) := by
    unfold TaskChecker.get_pending_tasks
    dsimp only
    rw [pending_foldl_eq_filter, List.nil_append]
  refine ⟨hmain, ?_, rfl, rfl⟩
  rw [hmain]
  rw [List.all_eq_true]
  intro t ht
  have := List.of_mem_filter ht
  simpa [pendKeep] using this

/-- C9: when the free-text time is one the parser rejects (returns `None`),
`create_task` returns the user-facing failure message and leaves the entire
state untouched — nothing is loaded, written or reported. -/
theorem create_task_unparseable_time (isoFmt dispFmt : PyDateTime → String)
    (newId nowIso : String) (s : Sys TaskDoc) (uid reason time_str : String)
    (now : PyDateTime) (ork : SaveOutcome)
    (h : parse_time_input time_str now = .ok none) :
    TaskChecker.create_task isoFmt dispFmt newId nowIso s uid reason time_str now ork =
      (.ok (false, couldNotMsg), s, []) := by
  unfold TaskChecker.create_task
  rw [h]

theorem create_task_unparseable_time_witness :
    TaskChecker.create_task (fun _ => "") (fun _ => "") "id1" "now1" noUserSys
        "u" "buy milk" "whenever" dNow .ok =
      (.ok (false, couldNotMsg), noUserSys, []) :=
  create_task_unparseable_time (fun _ => "") (fun _ => "") "id1" "now1" noUserSys
    "u" "buy milk" "whenever" dNow .ok rfl

/-- C10: `markTutorialComplete`'s document transformation sets only the
user's `tutorial_shown` flag to `true` (creating the record if absent):
every other user's record and every other key of this user's record are
preserved. -/
theorem mark_tutorial_frame (prefs : PrefDoc) (uid : String) :
    (∀ u, u ≠ uid → alookup u (markTutorialDoc prefs uid) = alookup u prefs) ∧
    ∃ rec, alookup uid (markTutorialDoc prefs uid) = some rec ∧
      alookup "tutorial_shown" rec = some (JVal.bool true) ∧
      ∀ k, k ≠ "tutorial_shown" →
        alookup k rec = alookup k ((alookup uid prefs).getD []) := by
  constructor
  · intro u hu
    unfold markTutorialDoc
    cases halo : alookup uid prefs with
    | none =>
      dsimp only
      rw [alookup_aset_ne uid u _ _ hu, alookup_aset_ne uid u _ _ hu]
    | some r =>
      dsimp only
      rw [alookup_aset_ne uid u _ _ hu]
  · refine ⟨aset "tutorial_shown" (JVal.bool true) ((alookup uid prefs).getD []), ?_, ?_, ?_⟩
    · unfold markTutorialDoc
      cases halo : alookup uid prefs with
      | none =>
        dsimp only
        rw [alookup_aset_self, alookup_aset_self]
        simp
      | some r =>
        dsimp only
        rw [alookup_aset_self, halo]
    · exact alookup_aset_self _ _ _
    · intro k hk
      exact alookup_aset_ne _ _ _ _ hk

/-- Concrete preferences document for the C10 witness. -/
def prefs0 : PrefDoc := [("u", [("theme", JVal.str "dark")]), ("v", [])]

theorem mark_tutorial_frame_witness :
    alookup "v" (markTutorialDoc prefs0 "u") = alookup "v" prefs0 ∧
    ∃ rec, alookup "u" (markTutorialDoc prefs0 "u") = some rec ∧
      alookup "tutorial_shown" rec = some (JVal.bool true) ∧
      alookup "theme" rec = alookup "theme" ((alookup "u" prefs0).getD []) := by
  refine ⟨(mark_tutorial_frame prefs0 "u").1 "v" (by decide), ?_⟩
  obtain ⟨rec, h1, h2, h3⟩ := (mark_tutorial_frame prefs0 "u").2
  exact ⟨rec, h1, h2, h3 "theme" (by decide)⟩

/-!
## Fuzzy matching: difflib.SequenceMatcher ratio

`fuzzy_match` / `fuzzy_similarity` (src/utility.py lines 146-154) call
`SequenceMatcher(None, str1.lower(), str2.lower()).ratio()`.  The CPython
algorithm is embedded over character lists: `b2j` position lists with the
autojunk rule (strings of length at least 200 drop characters occurring in
more than one percent of `b`), the dynamic-programming longest-block search
of `find_longest_match` with its strictly-greater update rule and the two
junk-free extension loops (with `isjunk=None` the junk set is empty, so the
two junk extension loops never run), and the recursive block decomposition
summed by `get_matching_blocks`; `ratio` is `2*M/T` as a rational (CPython
computes the same quantity in floating point; `T = 0` gives ratio 1).  The
recursion of the block decomposition is driven by a fuel argument that
dominates its depth: every recursive call strictly shrinks the `a`-window,
so `a.length + 1` steps always suffice (`matchTotal_eq_of_fuel` below makes
the fuel-independence precise).  `.lower()` is modelled per character.
-/

/-- Character at index `i` (all accesses in the algorithm are in range). -/
def aGet (l : List Char) (i : Nat) : Char := l.getD i ' '

/-- Ascending positions of `c` in `b` (the `b2j` entry before junk pruning). -/
def posOf (b : List Char) (c : Char) : List Nat :=
  (List.range b.length).filter (fun j => aGet b j == c)

/-- The autojunk rule of `SequenceMatcher.__chain_b`. -/
def isPopular (b : List Char) (c : Char) : Bool :=
  decide (200 ≤ b.length) && decide (b.length / 100 + 1 < b.count c)

/-- `b2j.get(c, [])` after popular entries are deleted. -/
def b2jOf (b : List Char) (c : Char) : List Nat :=
  if isPopular b c then [] else posOf b c

/-- `besti, bestj, bestsize` of `find_longest_match`. -/
structure Block where
  bi : Nat
  bj : Nat
  bk : Nat
deriving Repr, DecidableEq

/-- One row `i` of the `find_longest_match` dynamic program: fold over the
in-window `b` positions of `a[i]`, building the new `newj2len` function from
the previous row's `j2len` (`prev`) and updating the best block on a
strictly longer run. -/
def dpStep (prev : Nat → Nat) (i : Nat) (q : (Nat → Nat) × Block) (j : Nat) :
    (Nat → Nat) × Block :=
  let k := if j = 0 then 1 else prev (j - 1) + 1
  ((fun x => if x = j then k else q.1 x),
   if q.2.bk < k then ⟨i + 1 - k, j + 1 - k, k⟩ else q.2)

def dpRow (js : List Nat) (prev : Nat → Nat) (i : Nat) (bst : Block) :
    (Nat → Nat) × Block :=
  js.foldl (dpStep prev i) ((fun _ => 0), bst)

/-- The full dynamic program of `find_longest_match` over rows
`range(alo, ahi)`; the `continue`/`break` window clipping of the sorted
position list is the filter. -/
def dpAll (a b : List Char) (alo ahi blo bhi : Nat) : Block :=
  ((List.range' alo (ahi - alo)).foldl
    (fun st i =>
      dpRow ((b2jOf b (aGet a i)).filter (fun j => decide (blo ≤ j) && decide (j < bhi)))
        st.1 i st.2)
    ((fun _ => 0), (⟨alo, blo, 0⟩ : Block))).2

/-- The left extension loop (non-junk version; the junk variant is vacuous
for `isjunk=None`).  Fuel bounds the iterations; `bi` many always suffice
since `bi` strictly decreases. -/
def extLeft (a b : List Char) (alo blo : Nat) : Nat → Block → Block
  | 0, bl => bl
  | fuel + 1, bl =>
    if alo < bl.bi ∧ blo < bl.bj ∧ aGet a (bl.bi - 1) = aGet b (bl.bj - 1) then
      extLeft a b alo blo fuel ⟨bl.bi - 1, bl.bj - 1, bl.bk + 1⟩
    else bl

/-- The right extension loop; `ahi` iterations always suffice since
`bi + bk` strictly increases and stays below `ahi`. -/
def extRight (a b : List Char) (ahi bhi : Nat) : Nat → Block → Block
  | 0, bl => bl
  | fuel + 1, bl =>
    if bl.bi + bl.bk < ahi ∧ bl.bj + bl.bk < bhi ∧
        aGet a (bl.bi + bl.bk) = aGet b (bl.bj + bl.bk) then
      extRight a b ahi bhi fuel ⟨bl.bi, bl.bj, bl.bk + 1⟩
    else bl

/-- `find_longest_match(alo, ahi, blo, bhi)`. -/
def flm (a b : List Char) (alo ahi blo bhi : Nat) : Block :=
  let d := dpAll a b alo ahi blo bhi
  let l := extLeft a b alo blo d.bi d
  extRight a b ahi bhi ahi l

/-- Total matched size of `get_matching_blocks` on a window: the found block
plus the recursive totals of the two flanking windows. -/
def matchTotal (a b : List Char) : Nat → Nat → Nat → Nat → Nat → Nat
  | 0, _, _, _, _ => 0
  | fuel + 1, alo, ahi, blo, bhi =>
    let bl := flm a b alo ahi blo bhi
    if bl.bk = 0 then 0
    else
      bl.bk + matchTotal a b fuel alo bl.bi blo bl.bj +
        matchTotal a b fuel (bl.bi + bl.bk) ahi (bl.bj + bl.bk) bhi

/-- `sum(size for _, _, size in get_matching_blocks())`. -/
def msize (a b : List Char) : Nat :=
  matchTotal a b (a.length + 1) 0 a.length 0 b.length

/-- `SequenceMatcher(None, a, b).ratio()` as an exact rational. -/
def smRatio (a b : List Char) : ℚ :=
  if a.length + b.length = 0 then 1
  else (2 * msize a b : ℚ) / ((a.length : ℚ) + (b.length : ℚ))

/-- `fuzzy_similarity` (src/utility.py lines 152-154). -/
def fuzzy_similarity (str1 str2 : String) : ℚ :=
  smRatio (str1.toList.map Char.toLower) (str2.toList.map Char.toLower)

/-- `fuzzy_match` (src/utility.py lines 146-149); the default threshold 0.8
is the rational 4/5. -/
def fuzzy_match (str1 str2 : String) (threshold : ℚ := 4 / 5) : Bool :=
  decide (threshold ≤ fuzzy_similarity str1 str2)

example : msize ("ab".toList.map Char.toLower) ("bacb".toList.map Char.toLower) = 2 := by
  decide
example : msize ("bacb".toList.map Char.toLower) ("ab".toList.map Char.toLower) = 1 := by
  decide
example : msize ("cab".toList.map Char.toLower) ("bca".toList.map Char.toLower) = 2 := by
  decide
example : msize ("abab".toList.map Char.toLower) ("baba".toList.map Char.toLower) = 3 := by
  decide
example : msize ("Hello".toList.map Char.toLower) ("hello".toList.map Char.toLower) = 5 := by
  decide
example : msize ("hello".toList.map Char.toLower) ("hella".toList.map Char.toLower) = 4 := by
  decide


/-- Validity of a best block for a window: a zero-size block still sits at
the window origin; a positive block lies inside both windows. -/
def BlockInv (alo ahi blo bhi : Nat) (bl : Block) : Prop :=
  (bl.bk = 0 → bl.bi = alo ∧ bl.bj = blo) ∧
  (0 < bl.bk → alo ≤ bl.bi ∧ bl.bi + bl.bk ≤ ahi ∧ blo ≤ bl.bj ∧ bl.bj + bl.bk ≤ bhi)

/-- Invariant of one row of the dynamic program: run lengths are bounded by
the number of processed rows and by the distance into the `b` window, and
the best block stays valid. -/
theorem dpRow_foldl_inv (alo ahi blo bhi : Nat) (prev : Nat → Nat) (i m : Nat)
    (hprev : ∀ x, prev x ≤ m ∧ (prev x ≠ 0 → blo ≤ x ∧ prev x + blo ≤ x + 1))
    (hi1 : i < ahi) (hi2 : i = alo + m) :
    ∀ (js : List Nat) (q : (Nat → Nat) × Block),
      (∀ j ∈ js, blo ≤ j ∧ j < bhi) →
      (∀ x, q.1 x ≤ m + 1 ∧ (q.1 x ≠ 0 → blo ≤ x ∧ q.1 x + blo ≤ x + 1)) →
      BlockInv alo ahi blo bhi q.2 →
      (∀ x, (js.foldl (dpStep prev i) q).1 x ≤ m + 1 ∧
        ((js.foldl (dpStep prev i) q).1 x ≠ 0 →
          blo ≤ x ∧ (js.foldl (dpStep prev i) q).1 x + blo ≤ x + 1)) ∧
      BlockInv alo ahi blo bhi ((js.foldl (dpStep prev i) q).2) := by
  intro js
  induction js with
  | nil =>
    intro q _ hq hb
    exact ⟨hq, hb⟩
  | cons j js ih =>
    intro q hjs hq hb
    rw [List.foldl_cons]
    have hjw := hjs j (by simp)
    have hex : ∃ kv, (if j = 0 then 1 else prev (j - 1) + 1) = kv ∧ 1 ≤ kv ∧
        kv ≤ m + 1 ∧ kv + blo ≤ j + 1 := by
      refine ⟨_, rfl, ?_, ?_, ?_⟩
      · by_cases h0 : j = 0 <;> simp [h0]
      · by_cases h0 : j = 0
        · simp [h0]
        · simp only [h0, if_false]
          have := (hprev (j - 1)).1
          omega
      · by_cases h0 : j = 0
        · have hb0 : blo ≤ j := hjw.1
          subst h0
          rw [if_pos rfl]
          omega
        · simp only [h0, if_false]
          rcases Nat.eq_zero_or_pos (prev (j - 1)) with hz | hp
          · rw [hz]
            have := hjw.1
            omega
          · have h2 := (hprev (j - 1)).2 (by omega)
            omega
    obtain ⟨kv, hkv, hk1, hkm, hkb⟩ := hex
    have hstep : dpStep prev i q j =
        ((fun x => if x = j then kv else q.1 x),
         if q.2.bk < kv then ⟨i + 1 - kv, j + 1 - kv, kv⟩ else q.2) := by
      unfold dpStep
      rw [hkv]
    rw [hstep]
    refine ih _ (fun x hx => hjs x (by simp [hx])) ?_ ?_
    · intro x
      dsimp only
      by_cases hx : x = j
      · simp only [hx, if_pos rfl]
        exact ⟨hkm, fun _ => ⟨hjw.1, hkb⟩⟩
      · simp only [hx, if_false]
        exact hq x
    · dsimp only
      by_cases hup : q.2.bk < kv
      · rw [if_pos hup]
        constructor
        · intro hz
          simp only at hz
          omega
        · intro _
          simp only
          have hb1 := hjw.1
          have hb2 := hjw.2
          refine ⟨by omega, by omega, by omega, by omega⟩
      · rw [if_neg hup]
        exact hb

/-- The dynamic-programming part of `find_longest_match` yields a valid best
block. -/
theorem dpAll_foldl_inv (a b : List Char) (alo ahi blo bhi : Nat) :
    ∀ (n : Nat) (i0 m : Nat) (st : (Nat → Nat) × Block),
      i0 = alo + m → i0 + n ≤ ahi →
      (∀ x, st.1 x ≤ m ∧ (st.1 x ≠ 0 → blo ≤ x ∧ st.1 x + blo ≤ x + 1)) →
      BlockInv alo ahi blo bhi st.2 →
      BlockInv alo ahi blo bhi (((List.range' i0 n).foldl
        (fun st i =>
          dpRow ((b2jOf b (aGet a i)).filter (fun j => decide (blo ≤ j) && decide (j < bhi)))
            st.1 i st.2) st).2) := by
  intro n
  induction n with
  | zero =>
    intro i0 m st _ _ _ hb
    simpa using hb
  | succ n ih =>
    intro i0 m st him hn hst hb
    rw [List.range'_succ, List.foldl_cons]
    have hrow := dpRow_foldl_inv alo ahi blo bhi st.1 i0 m hst (by omega) him
      ((b2jOf b (aGet a i0)).filter (fun j => decide (blo ≤ j) && decide (j < bhi)))
      ((fun _ => 0), st.2)
      (by
        intro j hj
        rw [List.mem_filter] at hj
        have := hj.2
        simp only [Bool.and_eq_true, decide_eq_true_eq] at this
        exact this)
      (by
        intro x
        refine ⟨by simp, by simp⟩)
      hb
    exact ih (i0 + 1) (m + 1) _ (by omega) (by omega)
      (by
        intro x
        unfold dpRow
        exact hrow.1 x)
      (by
        unfold dpRow
        exact hrow.2)

theorem dpAll_bounds (a b : List Char) (alo ahi blo bhi : Nat) (h1 : alo ≤ ahi) :
    BlockInv alo ahi blo bhi (dpAll a b alo ahi blo bhi) := by
  unfold dpAll
  refine dpAll_foldl_inv a b alo ahi blo bhi (ahi - alo) alo 0 _ rfl (by omega)
    (by intro x; exact ⟨by simp, by simp⟩) ?_
  constructor
  · intro _
    exact ⟨rfl, rfl⟩
  · intro h
    simp at h

theorem extLeft_inv (a b : List Char) (alo ahi blo bhi : Nat) :
    ∀ (fuel : Nat) (bl : Block), BlockInv alo ahi blo bhi bl →
      BlockInv alo ahi blo bhi (extLeft a b alo blo fuel bl) := by
  intro fuel
  induction fuel with
  | zero => intro bl hb; exact hb
  | succ fuel ih =>
    intro bl hb
    unfold extLeft
    by_cases hc : alo < bl.bi ∧ blo < bl.bj ∧ aGet a (bl.bi - 1) = aGet b (bl.bj - 1)
    · rw [if_pos hc]
      refine ih _ ?_
      obtain ⟨h0, hp⟩ := hb
      obtain ⟨hc1, hc2, _⟩ := hc
      constructor
      · intro h
        simp only at h
        omega
      · intro _
        simp only
        rcases Nat.eq_zero_or_pos bl.bk with hz | hpos
        · have := h0 hz
          omega
        · have := hp hpos
          refine ⟨by omega, by omega, by omega, by omega⟩
    · rw [if_neg hc]
      exact hb

theorem extRight_inv (a b : List Char) (alo ahi blo bhi : Nat) :
    ∀ (fuel : Nat) (bl : Block), BlockInv alo ahi blo bhi bl →
      BlockInv alo ahi blo bhi (extRight a b ahi bhi fuel bl) := by
  intro fuel
  induction fuel with
  | zero => intro bl hb; exact hb
  | succ fuel ih =>
    intro bl hb
    unfold extRight
    by_cases hc : bl.bi + bl.bk < ahi ∧ bl.bj + bl.bk < bhi ∧
        aGet a (bl.bi + bl.bk) = aGet b (bl.bj + bl.bk)
    · rw [if_pos hc]
      refine ih _ ?_
      obtain ⟨h0, hp⟩ := hb
      obtain ⟨hc1, hc2, _⟩ := hc
      constructor
      · intro h
        simp only at h
        omega
      · intro _
        simp only
        rcases Nat.eq_zero_or_pos bl.bk with hz | hpos
        · have := h0 hz
          omega
        · have := hp hpos
          refine ⟨by omega, by omega, by omega, by omega⟩
    · rw [if_neg hc]
      exact hb

theorem flm_bounds (a b : List Char) (alo ahi blo bhi : Nat) (h1 : alo ≤ ahi) :
    BlockInv alo ahi blo bhi (flm a b alo ahi blo bhi) := by
  unfold flm
  exact extRight_inv a b alo ahi blo bhi ahi _
    (extLeft_inv a b alo ahi blo bhi _ _ (dpAll_bounds a b alo ahi blo bhi h1))

/-- The matched total never exceeds the `a` window length. -/
theorem matchTotal_le_a (a b : List Char) :
    ∀ (fuel alo ahi blo bhi : Nat), alo ≤ ahi →
      matchTotal a b fuel alo ahi blo bhi ≤ ahi - alo := by
  intro fuel
  induction fuel with
  | zero => intro alo ahi blo bhi _; simp [matchTotal]
  | succ fuel ih =>
    intro alo ahi blo bhi h1
    unfold matchTotal
    dsimp only
    by_cases hz : (flm a b alo ahi blo bhi).bk = 0
    · rw [if_pos hz]
      omega
    · rw [if_neg hz]
      have hb := (flm_bounds a b alo ahi blo bhi h1).2 (by omega)
      have h2 := ih alo (flm a b alo ahi blo bhi).bi blo (flm a b alo ahi blo bhi).bj
        (by omega)
      have h3 := ih ((flm a b alo ahi blo bhi).bi + (flm a b alo ahi blo bhi).bk) ahi
        ((flm a b alo ahi blo bhi).bj + (flm a b alo ahi blo bhi).bk) bhi (by omega)
      omega

/-- The matched total never exceeds the `b` window length. -/
theorem matchTotal_le_b (a b : List Char) :
    ∀ (fuel alo ahi blo bhi : Nat), alo ≤ ahi →
      matchTotal a b fuel alo ahi blo bhi ≤ bhi - blo := by
  intro fuel
  induction fuel with
  | zero => intro alo ahi blo bhi _; simp [matchTotal]
  | succ fuel ih =>
    intro alo ahi blo bhi h1
    unfold matchTotal
    dsimp only
    by_cases hz : (flm a b alo ahi blo bhi).bk = 0
    · rw [if_pos hz]
      omega
    · rw [if_neg hz]
      have hb := (flm_bounds a b alo ahi blo bhi h1).2 (by omega)
      have h2 := ih alo (flm a b alo ahi blo bhi).bi blo (flm a b alo ahi blo bhi).bj
        (by omega)
      have h3 := ih ((flm a b alo ahi blo bhi).bi + (flm a b alo ahi blo bhi).bk) ahi
        ((flm a b alo ahi blo bhi).bj + (flm a b alo ahi blo bhi).bk) bhi (by omega)
      omega

theorem msize_le_left (a b : List Char) : msize a b ≤ a.length := by
  have h := matchTotal_le_a a b (a.length + 1) 0 a.length 0 b.length (by omega)
  unfold msize
  omega

theorem msize_le_right (a b : List Char) : msize a b ≤ b.length := by
  have h := matchTotal_le_b a b (a.length + 1) 0 a.length 0 b.length (by omega)
  unfold msize
  omega

theorem smRatio_nonneg (a b : List Char) : 0 ≤ smRatio a b := by
  unfold smRatio
  by_cases h : a.length + b.length = 0
  · rw [if_pos h]
    norm_num
  · rw [if_neg h]
    apply div_nonneg
    · positivity
    · positivity

theorem smRatio_le_one (a b : List Char) : smRatio a b ≤ 1 := by
  unfold smRatio
  by_cases h : a.length + b.length = 0
  · rw [if_pos h]
  · rw [if_neg h]
    have hpos : 0 < a.length + b.length := Nat.pos_of_ne_zero h
    have hq : (0 : ℚ) < (a.length : ℚ) + (b.length : ℚ) := by exact_mod_cast hpos
    rw [div_le_one hq]
    have h1 := msize_le_left a b
    have h2 := msize_le_right a b
    have hc1 : (msize a b : ℚ) ≤ (a.length : ℚ) := by exact_mod_cast h1
    have hc2 : (msize a b : ℚ) ≤ (b.length : ℚ) := by exact_mod_cast h2
    have : (2 : ℚ) * (msize a b : ℚ) = (msize a b : ℚ) + (msize a b : ℚ) := by ring
    linarith

/-- Membership condition of the clipped `b2j` list in the reflexive
instance `a = b = s` with equal windows `[lo, hi)`: position `j` is
processed in row `i` iff both indices are in the window, `s[j] = s[i]`, and
the character is not autojunk-popular. -/
def rcond (s : List Char) (lo hi i j : Nat) : Prop :=
  lo ≤ i ∧ i < hi ∧ lo ≤ j ∧ j < hi ∧ j < s.length ∧
    aGet s j = aGet s i ∧ isPopular s (aGet s i) = false

instance (s : List Char) (lo hi i j : Nat) : Decidable (rcond s lo hi i j) := by
  unfold rcond
  infer_instance

theorem mem_js_iff (s : List Char) (lo hi i : Nat) (hlo : lo ≤ i) (hih : i < hi) (j : Nat) :
    (j ∈ (b2jOf s (aGet s i)).filter (fun j => decide (lo ≤ j) && decide (j < hi))) ↔
      rcond s lo hi i j := by
  rw [List.mem_filter]
  unfold rcond b2jOf
  by_cases hp : isPopular s (aGet s i)
  · rw [if_pos hp]
    simp [hp]
  · rw [if_neg hp]
    unfold posOf
    rw [List.mem_filter, List.mem_range]
    have hp' : isPopular s (aGet s i) = false := by
      revert hp
      cases isPopular s (aGet s i) <;> simp
    simp only [Bool.and_eq_true, decide_eq_true_eq, beq_iff_eq]
    constructor
    · rintro ⟨⟨hjl, hae⟩, hjlo, hjhi⟩
      exact ⟨hlo, hih, hjlo, hjhi, hjl, hae, hp'⟩
    · rintro ⟨_, _, hjlo, hjhi, hjl, hae, _⟩
      exact ⟨⟨hjl, hae⟩, hjlo, hjhi⟩

theorem js_pairwise (s : List Char) (lo hi i : Nat) :
    ((b2jOf s (aGet s i)).filter (fun j => decide (lo ≤ j) && decide (j < hi))).Pairwise
      (· < ·) := by
  have h1 : (b2jOf s (aGet s i)).Pairwise (· < ·) := by
    unfold b2jOf
    by_cases hp : isPopular s (aGet s i)
    · rw [if_pos hp]
      exact List.Pairwise.nil
    · rw [if_neg hp]
      unfold posOf
      exact List.Pairwise.sublist (List.filter_sublist _) (List.pairwise_lt_range _)
  exact List.Pairwise.sublist (List.filter_sublist _) h1

/-- Run length ending at `(i, j)` in the reflexive dynamic program: the
closed form of the `j2len` values. -/
def runlen (s : List Char) (lo hi : Nat) : Nat → Nat → Nat
  | 0, j => if rcond s lo hi 0 j then 1 else 0
  | i + 1, 0 => if rcond s lo hi (i + 1) 0 then 1 else 0
  | i + 1, j + 1 => if rcond s lo hi (i + 1) (j + 1) then runlen s lo hi i j + 1 else 0

theorem runlen_zero_of_not (s : List Char) (lo hi : Nat) (i j : Nat)
    (h : ¬ rcond s lo hi i j) : runlen s lo hi i j = 0 := by
  cases i with
  | zero =>
    simp only [runlen]
    rw [if_neg h]
  | succ i' =>
    cases j with
    | zero =>
      simp only [runlen]
      rw [if_neg h]
    | succ j' =>
      simp only [runlen]
      rw [if_neg h]

theorem runlen_zero_of_lt_lo (s : List Char) (lo hi : Nat) (i j : Nat) (h : i < lo) :
    runlen s lo hi i j = 0 :=
  runlen_zero_of_not s lo hi i j (fun hc => absurd hc.1 (by omega))

theorem rcond_symm (s : List Char) (lo hi : Nat) (hhi : hi ≤ s.length) {i j : Nat} :
    rcond s lo hi i j ↔ rcond s lo hi j i := by
  constructor
  · rintro ⟨h1, h2, h3, h4, _, h6, h7⟩
    refine ⟨h3, h4, h1, h2, by omega, h6.symm, ?_⟩
    rw [h6]
    exact h7
  · rintro ⟨h1, h2, h3, h4, _, h6, h7⟩
    refine ⟨h3, h4, h1, h2, by omega, h6.symm, ?_⟩
    rw [h6]
    exact h7

theorem rcond_diag (s : List Char) (lo hi : Nat) (hhi : hi ≤ s.length) {i j : Nat}
    (h : rcond s lo hi i j) : rcond s lo hi i i :=
  ⟨h.1, h.2.1, h.1, h.2.1, by have := h.2.1; omega, rfl, h.2.2.2.2.2.2⟩

theorem runlen_le_row (s : List Char) (lo hi : Nat) :
    ∀ i j, runlen s lo hi i j ≠ 0 → runlen s lo hi i j + lo ≤ i + 1 := by
  intro i
  induction i with
  | zero =>
    intro j h
    simp only [runlen] at h ⊢
    by_cases hc : rcond s lo hi 0 j
    · rw [if_pos hc]
      have := hc.1
      omega
    · rw [if_neg hc] at h
      omega
  | succ i' ih =>
    intro j h
    cases j with
    | zero =>
      simp only [runlen] at h ⊢
      by_cases hc : rcond s lo hi (i' + 1) 0
      · rw [if_pos hc]
        have := hc.1
        omega
      · rw [if_neg hc] at h
        omega
    | succ j' =>
      simp only [runlen] at h ⊢
      by_cases hc : rcond s lo hi (i' + 1) (j' + 1)
      · rw [if_pos hc] at h ⊢
        rcases Nat.eq_zero_or_pos (runlen s lo hi i' j') with hz | hp
        · rw [hz]
          have := hc.1
          omega
        · have := ih j' (by omega)
          omega
      · rw [if_neg hc] at h
        omega

theorem runlen_symm (s : List Char) (lo hi : Nat) (hhi : hi ≤ s.length) :
    ∀ i j, runlen s lo hi i j = runlen s lo hi j i := by
  intro i
  induction i with
  | zero =>
    intro j
    cases j with
    | zero => rfl
    | succ j' =>
      simp only [runlen]
      by_cases hc : rcond s lo hi 0 (j' + 1)
      · rw [if_pos hc, if_pos ((rcond_symm s lo hi hhi).mp hc)]
      · rw [if_neg hc, if_neg (fun hcc => hc ((rcond_symm s lo hi hhi).mp hcc))]
  | succ i' ih =>
    intro j
    cases j with
    | zero =>
      simp only [runlen]
      by_cases hc : rcond s lo hi (i' + 1) 0
      · rw [if_pos hc, if_pos ((rcond_symm s lo hi hhi).mp hc)]
      · rw [if_neg hc, if_neg (fun hcc => hc ((rcond_symm s lo hi hhi).mp hcc))]
    | succ j' =>
      simp only [runlen]
      by_cases hc : rcond s lo hi (i' + 1) (j' + 1)
      · rw [if_pos hc, if_pos ((rcond_symm s lo hi hhi).mp hc), ih j']
      · rw [if_neg hc, if_neg (fun hcc => hc ((rcond_symm s lo hi hhi).mp hcc))]

theorem runlen_diag_le (s : List Char) (lo hi : Nat) (hhi : hi ≤ s.length) :
    ∀ i j, runlen s lo hi i j ≤ runlen s lo hi i i := by
  intro i
  induction i with
  | zero =>
    intro j
    cases j with
    | zero => exact le_refl _
    | succ j' =>
      simp only [runlen]
      by_cases hc : rcond s lo hi 0 (j' + 1)
      · rw [if_pos hc, if_pos (rcond_diag s lo hi hhi hc)]
      · rw [if_neg hc]
        omega
  | succ i' ih =>
    intro j
    cases j with
    | zero =>
      simp only [runlen]
      by_cases hc : rcond s lo hi (i' + 1) 0
      · rw [if_pos hc, if_pos (rcond_diag s lo hi hhi hc)]
        omega
      · rw [if_neg hc]
        omega
    | succ j' =>
      simp only [runlen]
      by_cases hc : rcond s lo hi (i' + 1) (j' + 1)
      · rw [if_pos hc, if_pos (rcond_diag s lo hi hhi hc)]
        have := ih j'
        omega
      · rw [if_neg hc]
        omega

/-- The `k` computed by `dpStep` from the previous row equals the closed-form
run length. -/
theorem kval_eq (s : List Char) (lo hi i j : Nat) (prev : Nat → Nat)
    (hprev : ∀ x, prev x = if lo < i then runlen s lo hi (i - 1) x else 0)
    (hlo : lo ≤ i) (hrc : rcond s lo hi i j) :
    (if j = 0 then 1 else prev (j - 1) + 1) = runlen s lo hi i j := by
  cases j with
  | zero =>
    rw [if_pos rfl]
    cases i with
    | zero =>
      simp only [runlen]
      rw [if_pos hrc]
    | succ i' =>
      simp only [runlen]
      rw [if_pos hrc]
  | succ j' =>
    rw [if_neg (Nat.succ_ne_zero j')]
    simp only [Nat.add_sub_cancel]
    rw [hprev j']
    by_cases hlt : lo < i
    · rw [if_pos hlt]
      cases i with
      | zero => omega
      | succ i'' =>
        simp only [runlen, Nat.add_sub_cancel]
        rw [if_pos hrc]
    · rw [if_neg hlt]
      cases i with
      | zero =>
        simp only [runlen]
        rw [if_pos hrc]
      | succ i'' =>
        simp only [runlen]
        rw [if_pos hrc]
        rw [runlen_zero_of_lt_lo s lo hi i'' j' (by omega)]

/-- Diagonality invariant of the best block in the reflexive instance. -/
def DiagInv (lo hi : Nat) (bl : Block) : Prop :=
  bl.bi = bl.bj ∧ lo ≤ bl.bi ∧ bl.bi + bl.bk ≤ hi

/-- Folding one row of the reflexive dynamic program keeps the best block on
the diagonal: a strictly better run at `(i, j)` with `j < i` is beaten by
its mirror processed in row `j`, and one with `j > i` is beaten by the
diagonal run processed earlier in the same row. -/
theorem rowfold_refl (s : List Char) (lo hi : Nat) (hhi : hi ≤ s.length)
    (i : Nat) (hlo : lo ≤ i) (hih : i < hi) (prev : Nat → Nat)
    (hprev : ∀ x, prev x = if lo < i then runlen s lo hi (i - 1) x else 0) :
    ∀ (l : List Nat) (q : (Nat → Nat) × Block),
      (∀ x ∈ l, rcond s lo hi i x) →
      l.Pairwise (· < ·) →
      (∀ x, rcond s lo hi i x → x ∉ l → runlen s lo hi i x ≤ q.2.bk) →
      (∀ x, q.1 x = if rcond s lo hi i x ∧ x ∉ l then runlen s lo hi i x else 0) →
      DiagInv lo hi q.2 →
      (∀ i' x, lo ≤ i' → i' < i → runlen s lo hi i' x ≤ q.2.bk) →
      DiagInv lo hi (l.foldl (dpStep prev i) q).2 ∧
      (∀ x, rcond s lo hi i x → runlen s lo hi i x ≤ (l.foldl (dpStep prev i) q).2.bk) ∧
      (∀ x, (l.foldl (dpStep prev i) q).1 x = runlen s lo hi i x) ∧
      (∀ i' x, lo ≤ i' → i' < i → runlen s lo hi i' x ≤ (l.foldl (dpStep prev i) q).2.bk) := by
  intro l
  induction l with
  | nil =>
    intro q _ _ hsplit hj2 hd hrows
    simp only [List.foldl_nil]
    refine ⟨hd, ?_, ?_, hrows⟩
    · intro x hx
      exact hsplit x hx (by simp)
    · intro x
      rw [hj2 x]
      by_cases hc : rcond s lo hi i x
      · simp [hc]
      · simp [hc, (runlen_zero_of_not s lo hi i x hc).symm]
  | cons j l ih =>
    intro q hsub hsort hsplit hj2 hd hrows
    rw [List.foldl_cons]
    have hrc : rcond s lo hi i j := hsub j (by simp)
    have hk : (if j = 0 then 1 else prev (j - 1) + 1) = runlen s lo hi i j :=
      kval_eq s lo hi i j prev hprev hlo hrc
    have hstep : dpStep prev i q j =
        ((fun x => if x = j then runlen s lo hi i j else q.1 x),
         if q.2.bk < runlen s lo hi i j then
           ⟨i + 1 - runlen s lo hi i j, j + 1 - runlen s lo hi i j, runlen s lo hi i j⟩
         else q.2) := by
      unfold dpStep
      rw [hk]
    rw [hstep]
    have hhead : ∀ y ∈ l, j < y := (List.pairwise_cons.mp hsort).1
    have hsort' : l.Pairwise (· < ·) := (List.pairwise_cons.mp hsort).2
    have hjnotl : j ∉ l := fun hmem => absurd (hhead j hmem) (lt_irrefl j)
    have hj2' : ∀ x, (fun x => if x = j then runlen s lo hi i j else q.1 x) x =
        if rcond s lo hi i x ∧ x ∉ l then runlen s lo hi i x else 0 := by
      intro x
      dsimp only
      by_cases hxj : x = j
      · subst hxj
        rw [if_pos rfl, if_pos ⟨hrc, hjnotl⟩]
      · rw [if_neg hxj, hj2 x]
        have hiff : (rcond s lo hi i x ∧ x ∉ j :: l) ↔ (rcond s lo hi i x ∧ x ∉ l) := by
          simp [hxj]
        rw [if_congr hiff rfl rfl]
    by_cases hup : q.2.bk < runlen s lo hi i j
    · have hji : j = i := by
        rcases lt_trichotomy j i with hlt | heq | hgt
        · exfalso
          have h1 : runlen s lo hi i j = runlen s lo hi j i := runlen_symm s lo hi hhi i j
          have h2 : runlen s lo hi j i ≤ q.2.bk := hrows j i hrc.2.2.1 hlt
          omega
        · exact heq
        · exfalso
          have h1 : runlen s lo hi i j ≤ runlen s lo hi i i :=
            runlen_diag_le s lo hi hhi i j
          have h2 : rcond s lo hi i i := rcond_diag s lo hi hhi hrc
          have h3 : i ∉ j :: l := by
            intro hmem
            rcases List.mem_cons.mp hmem with h | h
            · omega
            · exact absurd (hhead i h) (by omega)
          have h4 := hsplit i h2 h3
          omega
      subst hji
      rw [if_pos hup]
      have hrnz : runlen s lo hi j j ≠ 0 := by omega
      have hrr : runlen s lo hi j j + lo ≤ j + 1 := runlen_le_row s lo hi j j hrnz
      refine ih _ (fun x hx => hsub x (by simp [hx])) hsort' ?_ hj2' ?_ ?_
      · intro x hx hxl
        show runlen s lo hi j x ≤ runlen s lo hi j j
        exact runlen_diag_le s lo hi hhi j x
      · refine ⟨rfl, ?_, ?_⟩
        · show lo ≤ j + 1 - runlen s lo hi j j
          omega
        · show j + 1 - runlen s lo hi j j + runlen s lo hi j j ≤ hi
          omega
      · intro i' x h3 h4
        show runlen s lo hi i' x ≤ runlen s lo hi j j
        have := hrows i' x h3 h4
        omega
    · rw [if_neg hup]
      refine ih _ (fun x hx => hsub x (by simp [hx])) hsort' ?_ hj2' hd hrows
      intro x hx hxl
      show runlen s lo hi i x ≤ q.2.bk
      by_cases hxj : x = j
      · subst hxj
        omega
      · have hxin : x ∉ j :: l := by simp [hxj, hxl]
        exact hsplit x hx hxin

/-- Through every row of the reflexive dynamic program the best block stays
diagonal and dominates all processed run lengths. -/
theorem dpAll_refl_aux (s : List Char) (lo hi : Nat) (hhi : hi ≤ s.length) :
    ∀ (n i0 : Nat) (st : (Nat → Nat) × Block),
      lo ≤ i0 → i0 + n ≤ hi →
      (∀ x, st.1 x = if lo < i0 then runlen s lo hi (i0 - 1) x else 0) →
      DiagInv lo hi st.2 →
      (∀ i' x, lo ≤ i' → i' < i0 → runlen s lo hi i' x ≤ st.2.bk) →
      DiagInv lo hi (((List.range' i0 n).foldl
        (fun st i =>
          dpRow ((b2jOf s (aGet s i)).filter (fun j => decide (lo ≤ j) && decide (j < hi)))
            st.1 i st.2) st).2) := by
  intro n
  induction n with
  | zero =>
    intro i0 st _ _ _ hd _
    simpa using hd
  | succ n ih =>
    intro i0 st h1 h2 hprev hd hrows
    rw [List.range'_succ, List.foldl_cons]
    have hrow := rowfold_refl s lo hi hhi i0 h1 (by omega) st.1 hprev
      ((b2jOf s (aGet s i0)).filter (fun j => decide (lo ≤ j) && decide (j < hi)))
      ((fun _ => 0), st.2)
      (fun x hx => (mem_js_iff s lo hi i0 h1 (by omega) x).mp hx)
      (js_pairwise s lo hi i0)
      (fun x hx hnx => absurd ((mem_js_iff s lo hi i0 h1 (by omega) x).mpr hx) hnx)
      (by
        intro x
        dsimp only
        rw [if_neg]
        rintro ⟨ha, hb⟩
        exact hb ((mem_js_iff s lo hi i0 h1 (by omega) x).mpr ha))
      hd hrows
    refine ih (i0 + 1) _ (by omega) (by omega) ?_ ?_ ?_
    · intro x
      rw [if_pos (by omega)]
      have hx := hrow.2.2.1 x
      unfold dpRow
      simpa using hx
    · unfold dpRow
      exact hrow.1
    · intro i' x h3 h4
      unfold dpRow
      rcases Nat.lt_succ_iff_lt_or_eq.mp h4 with h5 | h5
      · exact hrow.2.2.2 i' x h3 h5
      · subst h5
        by_cases hc : rcond s lo hi i' x
        · exact hrow.2.1 x hc
        · rw [runlen_zero_of_not s lo hi i' x hc]
          omega

theorem dpAll_diag (s : List Char) (lo hi : Nat) (hlh : lo ≤ hi) (hhi : hi ≤ s.length) :
    DiagInv lo hi (dpAll s s lo hi lo hi) := by
  unfold dpAll
  refine dpAll_refl_aux s lo hi hhi (hi - lo) lo _ (le_refl lo) (by omega) ?_ ?_ ?_
  · intro x
    rw [if_neg (lt_irrefl lo)]
  · exact ⟨rfl, le_refl lo, by simpa using hlh⟩
  · intro i' x h3 h4
    exact absurd h4 (by omega)

theorem extLeft_diag (s : List Char) (lo : Nat) :
    ∀ (fuel d k : Nat), lo ≤ d → d - lo ≤ fuel →
      extLeft s s lo lo fuel ⟨d, d, k⟩ = ⟨lo, lo, k + (d - lo)⟩ := by
  intro fuel
  induction fuel with
  | zero =>
    intro d k h1 h2
    have hd : d = lo := by omega
    subst hd
    simp [extLeft]
  | succ fuel ih =>
    intro d k h1 h2
    unfold extLeft
    by_cases hc : lo < d
    · rw [if_pos ⟨hc, hc, rfl⟩]
      rw [ih (d - 1) (k + 1) (by omega) (by omega)]
      congr 1
      omega
    · have hd : d = lo := by omega
      subst hd
      rw [if_neg (fun hcc => absurd hcc.1 (lt_irrefl _))]
      simp

theorem extRight_diag (s : List Char) (lo hi : Nat) :
    ∀ (fuel k : Nat), lo + k ≤ hi → hi - (lo + k) ≤ fuel →
      extRight s s hi hi fuel ⟨lo, lo, k⟩ = ⟨lo, lo, hi - lo⟩ := by
  intro fuel
  induction fuel with
  | zero =>
    intro k h1 h2
    have hk : k = hi - lo := by omega
    subst hk
    rfl
  | succ fuel ih =>
    intro k h1 h2
    unfold extRight
    by_cases hc : lo + k < hi
    · rw [if_pos ⟨hc, hc, rfl⟩]
      exact ih (k + 1) (by omega) (by omega)
    · rw [if_neg (fun hcc => hc hcc.1)]
      have hk : k = hi - lo := by omega
      rw [hk]

/-- On the reflexive instance, `find_longest_match` returns the whole
window: any diagonal best block extends left to `lo` and right to `hi`
because every character equals itself. -/
theorem flm_refl (s : List Char) (lo hi : Nat) (hlh : lo ≤ hi) (hhi : hi ≤ s.length) :
    flm s s lo hi lo hi = ⟨lo, lo, hi - lo⟩ := by
  have hd := dpAll_diag s lo hi hlh hhi
  unfold flm
  rcases hdp : dpAll s s lo hi lo hi with ⟨bi, bj, bk⟩
  rw [hdp] at hd
  obtain ⟨h1, h2, h3⟩ := hd
  have h1' : bi = bj := h1
  have h2' : lo ≤ bi := h2
  have h3' : bi + bk ≤ hi := h3
  subst h1'
  dsimp only
  rw [extLeft_diag s lo bi bi bk h2' (by omega)]
  rw [extRight_diag s lo hi hi (bk + (bi - lo)) (by omega) (by omega)]

theorem dpAll_empty (a b : List Char) (alo ahi blo bhi : Nat) (h : ahi ≤ alo) :
    dpAll a b alo ahi blo bhi = ⟨alo, blo, 0⟩ := by
  unfold dpAll
  rw [Nat.sub_eq_zero_of_le h]
  rfl

theorem extLeft_at_origin (a b : List Char) (alo blo : Nat) :
    ∀ fuel bj k, extLeft a b alo blo fuel ⟨alo, bj, k⟩ = ⟨alo, bj, k⟩ := by
  intro fuel bj k
  cases fuel with
  | zero => rfl
  | succ fuel =>
    unfold extLeft
    rw [if_neg]
    intro h
    exact absurd h.1 (lt_irrefl alo)

theorem extRight_done (a b : List Char) (ahi bhi : Nat) :
    ∀ fuel bl, ahi ≤ bl.bi + bl.bk → extRight a b ahi bhi fuel bl = bl := by
  intro fuel bl h
  cases fuel with
  | zero => rfl
  | succ fuel =>
    unfold extRight
    rw [if_neg]
    intro hc
    exact absurd hc.1 (by omega)

theorem flm_empty (a b : List Char) (alo ahi blo bhi : Nat) (h : ahi ≤ alo) :
    flm a b alo ahi blo bhi = ⟨alo, blo, 0⟩ := by
  unfold flm
  rw [dpAll_empty a b alo ahi blo bhi h]
  dsimp only
  rw [extLeft_at_origin]
  exact extRight_done a b ahi bhi ahi _ (by simpa using h)

theorem matchTotal_empty (a b : List Char) :
    ∀ (fuel alo ahi blo bhi : Nat), ahi ≤ alo →
      matchTotal a b fuel alo ahi blo bhi = 0 := by
  intro fuel alo ahi blo bhi h
  cases fuel with
  | zero => rfl
  | succ fuel =>
    unfold matchTotal
    dsimp only
    rw [flm_empty a b alo ahi blo bhi h]
    rfl

theorem matchTotal_refl (s : List Char) (lo hi : Nat) (hlh : lo ≤ hi) (hhi : hi ≤ s.length) :
    ∀ fuel, 1 ≤ fuel → matchTotal s s fuel lo hi lo hi = hi - lo := by
  intro fuel hf
  cases fuel with
  | zero => omega
  | succ fuel =>
    unfold matchTotal
    dsimp only
    rw [flm_refl s lo hi hlh hhi]
    by_cases h0 : hi - lo = 0
    · rw [if_pos h0]
      omega
    · rw [if_neg h0]
      dsimp only
      rw [matchTotal_empty s s fuel lo lo lo lo (le_refl lo)]
      rw [matchTotal_empty s s fuel (lo + (hi - lo)) hi (lo + (hi - lo)) hi (by omega)]
      omega

theorem msize_refl (s : List Char) : msize s s = s.length := by
  unfold msize
  rw [matchTotal_refl s 0 s.length (by omega) (le_refl _) (s.length + 1) (by omega)]
  omega

theorem smRatio_refl (s : List Char) : smRatio s s = 1 := by
  unfold smRatio
  by_cases h : s.length + s.length = 0
  · rw [if_pos h]
  · rw [if_neg h]
    rw [msize_refl]
    have hs : s.length ≠ 0 := by omega
    have hq : (s.length : ℚ) ≠ 0 := by exact_mod_cast hs
    field_simp
    ring

/-- C7 (amended): the similarity ratio lies in [0,1], is 1 on identical
strings, and `fuzzy_match` is an inclusive threshold comparison against the
ratio with default threshold 4/5 (= 0.8); symmetry is dropped (see the
counterexample). -/
theorem fuzzy_similarity_props (a b : String) (t : ℚ) :
    0 ≤ fuzzy_similarity a b ∧ fuzzy_similarity a b ≤ 1 ∧
    fuzzy_similarity a a = 1 ∧
    (fuzzy_match a b t = true ↔ t ≤ fuzzy_similarity a b) ∧
    fuzzy_match a b = fuzzy_match a b (4 / 5) := by
  refine ⟨smRatio_nonneg _ _, smRatio_le_one _ _, smRatio_refl _, ?_, rfl⟩
  unfold fuzzy_match
  simp only [decide_eq_true_eq]

/-- C7 counterexample: the ratio is not symmetric.  The greedy
first-longest-block matching of SequenceMatcher finds two matched
characters for (`"ab"`, `"bacb"`) but only one for (`"bacb"`, `"ab"`)
(verified against CPython difflib). -/
theorem fuzzy_similarity_not_symmetric :
    fuzzy_similarity "ab" "bacb" = 2 / 3 ∧ fuzzy_similarity "bacb" "ab" = 1 / 3 ∧
    fuzzy_similarity "ab" "bacb" ≠ fuzzy_similarity "bacb" "ab" := by
  have h1 : fuzzy_similarity "ab" "bacb" = 2 / 3 := by
    unfold fuzzy_similarity smRatio
    rw [show msize ("ab".toList.map Char.toLower) ("bacb".toList.map Char.toLower) = 2
        from by decide,
      show ("ab".toList.map Char.toLower).length = 2 from by decide,
      show ("bacb".toList.map Char.toLower).length = 4 from by decide]
    norm_num
  have h2 : fuzzy_similarity "bacb" "ab" = 1 / 3 := by
    unfold fuzzy_similarity smRatio
    rw [show msize ("bacb".toList.map Char.toLower) ("ab".toList.map Char.toLower) = 1
        from by decide,
      show ("bacb".toList.map Char.toLower).length = 4 from by decide,
      show ("ab".toList.map Char.toLower).length = 2 from by decide]
    norm_num
  refine ⟨h1, h2, ?_⟩
  rw [h1, h2]
  norm_num
